import Mathlib

/-!
# Verification of the bevochain single-node ledger

Shallow embedding of `src/blockchain.py`: the `Blockchain` class (chain
state, block creation, transaction queueing, canonical block hashing via
SHA-256 over a sorted-key JSON serialization, proof-of-work search and
validation) together with the input check of the `/transactions/new` endpoint.

Python `time()` timestamps are modelled as natural numbers supplied by the
environment at each block creation; strings are assumed to be plain ASCII
without characters that JSON escaping would rewrite (all identifiers used
by the program and by the theorems below are of this form).
-/

namespace Bevochain

/-! ## SHA-256 (pure, executable, over `Nat` with explicit mod 2^32) -/

/-- Truncate to a 32-bit word. -/
def w32 (n : Nat) : Nat := n % 4294967296

/-- Right rotation of a 32-bit word by `n` places. -/
def rotr (n x : Nat) : Nat := w32 ((x >>> n) ||| (x <<< (32 - n)))

/-- Bitwise complement of a 32-bit word. -/
def compl32 (x : Nat) : Nat := 4294967295 - x

def ch (x y z : Nat) : Nat := (x &&& y) ^^^ (compl32 x &&& z)

def maj (x y z : Nat) : Nat := (x &&& y) ^^^ (x &&& z) ^^^ (y &&& z)

def bigSigma0 (x : Nat) : Nat := rotr 2 x ^^^ rotr 13 x ^^^ rotr 22 x

def bigSigma1 (x : Nat) : Nat := rotr 6 x ^^^ rotr 11 x ^^^ rotr 25 x

def smallSigma0 (x : Nat) : Nat := rotr 7 x ^^^ rotr 18 x ^^^ (x >>> 3)

def smallSigma1 (x : Nat) : Nat := rotr 17 x ^^^ rotr 19 x ^^^ (x >>> 10)

/-- The 64 SHA-256 round constants (FIPS 180-4, written in decimal). -/
def sha256K : List Nat :=
  [1116352408, 1899447441, 3049323471, 3921009573, 961987163,
   1508970993, 2453635748, 2870763221, 3624381080, 310598401,
   607225278, 1426881987, 1925078388, 2162078206, 2614888103,
   3248222580, 3835390401, 4022224774, 264347078, 604807628,
   770255983, 1249150122, 1555081692, 1996064986, 2554220882,
   2821834349, 2952996808, 3210313671, 3336571891, 3584528711,
   113926993, 338241895, 666307205, 773529912, 1294757372,
   1396182291, 1695183700, 1986661051, 2177026350, 2456956037,
   2730485921, 2820302411, 3259730800, 3345764771, 3516065817,
   3600352804, 4094571909, 275423344, 430227734, 506948616,
   659060556, 883997877, 958139571, 1322822218, 1537002063,
   1747873779, 1955562222, 2024104815, 2227730452, 2361852424,
   2428436474, 2756734187, 3204031479, 3329325298]

/-- The SHA-256 initial hash state (FIPS 180-4, written in decimal). -/
def sha256H0 : List Nat :=
  [1779033703, 3144134277, 1013904242, 2773480762,
   1359893119, 2600822924, 528734635, 1541459225]

/-- Append one extended word to the message schedule. -/
def stepW (ws : List Nat) : List Nat :=
  let i := ws.length
  ws ++ [w32 (smallSigma1 (ws.getD (i - 2) 0) + ws.getD (i - 7) 0 +
              smallSigma0 (ws.getD (i - 15) 0) + ws.getD (i - 16) 0)]

/-- Extend the 16-word schedule by `n` further words. -/
def extendW (ws : List Nat) : Nat → List Nat
  | 0 => ws
  | n + 1 => extendW (stepW ws) n

/-- One round of the SHA-256 compression function on the 8-word working
state, consuming a (round constant, schedule word) pair. -/
def compressStep (st : List Nat) (kw : Nat × Nat) : List Nat :=
  match st with
  | [a, b, c, d, e, f, g, h] =>
    let t1 := w32 (h + bigSigma1 e + ch e f g + kw.1 + kw.2)
    let t2 := w32 (bigSigma0 a + maj a b c)
    [w32 (t1 + t2), a, b, c, w32 (d + t1), e, f, g]
  | other => other

/-- Compress one 16-word message block into the hash state. -/
def compressBlock (h : List Nat) (ws : List Nat) : List Nat :=
  let w := extendW ws 48
  let st := (sha256K.zip w).foldl compressStep h
  List.zipWith (fun x y => w32 (x + y)) h st

/-- Fold the compression function over the message, 16 words at a time. -/
def sha256Blocks (h : List Nat) : List Nat → List Nat
  | w0 :: w1 :: w2 :: w3 :: w4 :: w5 :: w6 :: w7 ::
    w8 :: w9 :: w10 :: w11 :: w12 :: w13 :: w14 :: w15 :: rest =>
      sha256Blocks
        (compressBlock h [w0, w1, w2, w3, w4, w5, w6, w7,
                          w8, w9, w10, w11, w12, w13, w14, w15]) rest
  | _ => h

/-- Big-endian byte decomposition of `n` into `k` bytes. -/
def beBytes : Nat → Nat → List Nat
  | 0, _ => []
  | k + 1, n => beBytes k (n >>> 8) ++ [n % 256]

/-- Group a byte list into big-endian 32-bit words (four bytes each). -/
def bytesToWords : List Nat → List Nat
  | b0 :: b1 :: b2 :: b3 :: rest =>
      (((b0 * 256 + b1) * 256 + b2) * 256 + b3) :: bytesToWords rest
  | _ => []

/-- SHA-256 padding: append `0x80`, zero bytes to 56 mod 64, then the
64-bit big-endian bit length. -/
def padMsg (msg : List Nat) : List Nat :=
  let padZeros := (119 - msg.length % 64) % 64
  msg ++ [0x80] ++ List.replicate padZeros 0 ++ beBytes 8 (8 * msg.length)

/-- SHA-256 digest of a byte list, as a list of 32 bytes. -/
def sha256 (msg : List Nat) : List Nat :=
  (sha256Blocks sha256H0 (bytesToWords (padMsg msg))).foldr
    (fun word acc => beBytes 4 word ++ acc) []

/-- Lowercase hex character for a value below 16. -/
def hexChar (n : Nat) : Char :=
  if n < 10 then Char.ofNat (48 + n) else Char.ofNat (87 + n)

/-- Lowercase hex encoding of a byte list, two characters per byte. -/
def hexChars : List Nat → List Char
  | [] => []
  | b :: rest => hexChar (b / 16) :: hexChar (b % 16) :: hexChars rest

/-- Byte encoding of an ASCII string (Python `str.encode()`). -/
def strBytes (s : String) : List Nat := s.data.map Char.toNat

/-- Hex-encoded SHA-256 digest of a string (`hashlib.sha256(...).hexdigest()`). -/
def sha256Hex (s : String) : String := String.mk (hexChars (sha256 (strBytes s)))

/-! ## Data model -/

/-- A transaction as built by `Blockchain.create_transaction`:
a record of sender, recipient and amount. -/
structure Transaction where
  sender : String
  recipient : String
  amount : Int
deriving DecidableEq

/-- The `previous_hash` field of a block: the genesis block stores the
integer sentinel `1`, mined blocks store a hex digest string. -/
inductive PrevHash where
  | intVal : Int → PrevHash
  | strVal : String → PrevHash
deriving DecidableEq

/-- A block as built by `Blockchain.create_block`. -/
structure Block where
  index : Nat
  timestamp : Nat
  transactions : List Transaction
  proof : Int
  previous_hash : PrevHash
deriving DecidableEq

/-- The mutable state of the `Blockchain` class: the committed chain and
the pending transaction buffer. -/
structure Blockchain where
  chain : List Block
  current_transactions : List Transaction
deriving DecidableEq

/-! ## Canonical serialization and hashing

`Blockchain.hash` is `sha256(json.dumps(block, sort_keys=True).encode())`.
`json.dumps` with default separators and sorted keys prints
`\x7b"index": i, "previous_hash": p, "proof": q, "timestamp": t,
"transactions": [...]\x7d` (keys in lexicographic order). -/

/-- JSON string literal (no characters needing escapes are assumed). -/
def jsonStr (s : String) : String := "\"" ++ s ++ "\""

/-- Sorted-key JSON of a transaction (`amount < recipient < sender`). -/
def Transaction.toJson (t : Transaction) : String :=
  "\x7b\"amount\": " ++ toString t.amount ++
  ", \"recipient\": " ++ jsonStr t.recipient ++
  ", \"sender\": " ++ jsonStr t.sender ++ "\x7d"

/-- JSON of a `previous_hash` value. -/
def PrevHash.toJson : PrevHash → String
  | .intVal i => toString i
  | .strVal s => jsonStr s

/-- JSON array with the default Python separator (comma and space). -/
def jsonList (items : List String) : String :=
  "[" ++ String.intercalate (", ") items ++ "]"

/-- Sorted-key JSON of a block, exactly as `json.dumps(block, sort_keys=True)`
prints it (with the timestamp modelled as a natural number). -/
def Block.toJson (b : Block) : String :=
  "\x7b\"index\": " ++ toString b.index ++
  ", \"previous_hash\": " ++ b.previous_hash.toJson ++
  ", \"proof\": " ++ toString b.proof ++
  ", \"timestamp\": " ++ toString b.timestamp ++
  ", \"transactions\": " ++ jsonList (b.transactions.map Transaction.toJson) ++
  "\x7d"

/-- `Blockchain.hash`: SHA-256 hex digest of the sorted-key JSON of a block. -/
def Blockchain.hash (b : Block) : String := sha256Hex b.toJson

/-! ## Ledger operations -/

/-- `Blockchain.create_block`: build a block from the next index, the
given timestamp, the whole pending buffer and the given proof and
previous hash; clear the buffer; append the block. Returns the block and
the updated state. -/
def Blockchain.create_block (st : Blockchain) (t : Nat) (proof : Int)
    (previous_hash : PrevHash) : Block × Blockchain :=
  let block : Block :=
    { index := st.chain.length + 1
      timestamp := t
      transactions := st.current_transactions
      proof := proof
      previous_hash := previous_hash }
  (block, { chain := st.chain ++ [block], current_transactions := [] })

/-- `Blockchain.last_block`: the last block of the chain (`self.chain[-1]`;
`none` models the `IndexError` on an empty chain). -/
def Blockchain.last_block (st : Blockchain) : Option Block := st.chain.getLast?

/-- `Blockchain.create_transaction`: append one transaction to the pending
buffer, then return the index of the last block plus one (the state is updated even
when reading the last block would fail, mirroring the mutation-then-read
order of the Python code). -/
def Blockchain.create_transaction (st : Blockchain) (sender recipient : String)
    (amount : Int) : Option Nat × Blockchain :=
  let st2 : Blockchain :=
    { chain := st.chain
      current_transactions :=
        st.current_transactions ++ [⟨sender, recipient, amount⟩] }
  (st2.last_block.map (fun b => b.index + 1), st2)

/-- `Blockchain.__init__`: empty chain and buffer, then the genesis block
via `create_block(previous_hash=1, proof=100)` at the given time. -/
def Blockchain.init (t : Nat) : Blockchain :=
  (Blockchain.create_block ⟨[], []⟩ t 100 (PrevHash.intVal 1)).2

/-- The genesis block produced by `Blockchain.__init__` at time `t`. -/
def genesisBlock (t : Nat) : Block :=
  { index := 1, timestamp := t, transactions := [], proof := 100
    previous_hash := PrevHash.intVal 1 }

/-! ## Proof of work -/

/-- `Blockchain.valid_proof`: SHA-256 hex digest of the concatenated
decimal strings of the two proofs; valid iff the first two
characters of the digest are the string 00 (a two-character comparison). -/
def Blockchain.valid_proof (last_proof proof : Int) : Bool :=
  let guess := toString last_proof ++ toString proof
  let guess_hash := hexChars (sha256 (strBytes guess))
  guess_hash.take 2 == ['0', '0']

/-- The `while` loop of `Blockchain.proof_of_work`, made total with a fuel
bound: starting at `proof`, return the first candidate accepted by
`valid_proof`, or `none` when the fuel runs out. -/
def powLoop (last_proof : Int) : Nat → Nat → Option Nat
  | 0, _ => none
  | fuel + 1, proof =>
      if Blockchain.valid_proof last_proof (Int.ofNat proof) then some proof
      else powLoop last_proof fuel (proof + 1)

/-- `Blockchain.proof_of_work`: the value the unbounded search loop
returns, defined (under the precondition that a satisfying candidate
exists) as the least satisfying candidate. -/
def Blockchain.proof_of_work (last_proof : Int)
    (h : ∃ c : Nat, Blockchain.valid_proof last_proof (Int.ofNat c) = true) :
    Nat :=
  Nat.find h

/-! ## Operation traces -/

/-- One caller-visible mutating operation on the ledger. -/
inductive Op where
  | enqueue (sender recipient : String) (amount : Int)
  | commit (t : Nat) (proof : Int) (previous_hash : PrevHash)

/-- Apply one operation to the ledger state. -/
def applyOp (st : Blockchain) : Op → Blockchain
  | .enqueue s r a => (st.create_transaction s r a).2
  | .commit t p ph => (st.create_block t p ph).2

/-- Run a sequence of operations from a state. -/
def run (st : Blockchain) (ops : List Op) : Blockchain := ops.foldl applyOp st

/-- Effect of one operation on the pending buffer alone. -/
def pendStep (acc : List Transaction) : Op → List Transaction
  | .enqueue s r a => acc ++ [⟨s, r, a⟩]
  | .commit _ _ _ => []

/-- The transactions enqueued since the most recent commit of a trace, in
enqueue order (all enqueues of the trace when no commit occurs). -/
def pendingOfTrace (ops : List Op) : List Transaction :=
  ops.foldl pendStep []

/-- States reachable when every commit passes the canonical hash of the
current last block as `previous_hash`, as the `/mine` endpoint does. -/
inductive ChainedReach : Blockchain → Prop where
  | init (t : Nat) : ChainedReach (Blockchain.init t)
  | enqueue {st : Blockchain} (s r : String) (a : Int) :
      ChainedReach st → ChainedReach (st.create_transaction s r a).2
  | commit {st : Blockchain} {lb : Block} (t : Nat) (p : Int) :
      ChainedReach st → st.last_block = some lb →
      ChainedReach (st.create_block t p (PrevHash.strVal (Blockchain.hash lb))).2

/-! ## The `/transactions/new` endpoint -/

/-- The JSON body of a submit-transfer request: each required key is
present (`some`) or absent (`none`). -/
structure TransferRequest where
  sender : Option String
  recipient : Option String
  amount : Option Int

/-- The `/transactions/new` handler: reject with status 400 and the message
Missing values, before touching the ledger, when any required field is absent; otherwise
enqueue and answer 201 (`none` models the uncaught exception were the
chain empty). -/
def create_transaction_endpoint (st : Blockchain) (req : TransferRequest) :
    Option (String × Nat) × Blockchain :=
  match req.sender, req.recipient, req.amount with
  | some s, some r, some a =>
      let res := st.create_transaction s r a
      (res.1.map
        (fun idx => ("Transaction will be added to Block " ++ toString idx, 201)),
       res.2)
  | _, _, _ => (some ("Missing values", 400), st)

/-! ## Spec-side difficulty predicate (for the refinement claim C4) -/

/-- Written from the wording of the spec, for comparison with the code
`Blockchain.valid_proof`: hash the concatenation of the decimal strings,
hex-encode, and demand that the first two hex characters are both `'0'`. -/
def validProofSpec (reference candidate : Int) : Bool :=
  let digest := hexChars (sha256 (strBytes (toString reference ++ toString candidate)))
  digest.getD 0 'x' == '0' && digest.getD 1 'x' == '0'

/-! ## Invariant statements -/

/-- Every block of `l` carries the 1-based position it occupies. -/
def indexOk (l : List Block) : Prop :=
  ∀ (i : Nat) (b : Block), l[i]? = some b → b.index = i + 1

/-- Every adjacent pair of blocks of `l` is linked by the canonical hash. -/
def chainLinked (l : List Block) : Prop :=
  ∀ (i : Nat) (b1 b2 : Block), l[i]? = some b1 → l[i + 1]? = some b2 →
    b2.previous_hash = PrevHash.strVal (Blockchain.hash b1)

/-- The chain is non-empty and correctly indexed. -/
def ChainInv (st : Blockchain) : Prop :=
  st.chain ≠ [] ∧ indexOk st.chain

/-! ## Structural lemmas -/

theorem run_nil (st : Blockchain) : run st [] = st := rfl

theorem run_cons (st : Blockchain) (op : Op) (ops : List Op) :
    run st (op :: ops) = run (applyOp st op) ops := rfl

theorem init_chain (t : Nat) : (Blockchain.init t).chain = [genesisBlock t] := rfl

theorem init_pending (t : Nat) : (Blockchain.init t).current_transactions = [] := rfl

theorem create_block_fst (st : Blockchain) (t : Nat) (p : Int) (ph : PrevHash) :
    (st.create_block t p ph).1 =
      { index := st.chain.length + 1, timestamp := t,
        transactions := st.current_transactions, proof := p,
        previous_hash := ph } := rfl

theorem create_block_chain (st : Blockchain) (t : Nat) (p : Int) (ph : PrevHash) :
    (st.create_block t p ph).2.chain = st.chain ++ [(st.create_block t p ph).1] := rfl

theorem create_block_pending (st : Blockchain) (t : Nat) (p : Int) (ph : PrevHash) :
    (st.create_block t p ph).2.current_transactions = [] := rfl

theorem create_transaction_chain (st : Blockchain) (s r : String) (a : Int) :
    (st.create_transaction s r a).2.chain = st.chain := rfl

theorem create_transaction_pending (st : Blockchain) (s r : String) (a : Int) :
    (st.create_transaction s r a).2.current_transactions =
      st.current_transactions ++ [⟨s, r, a⟩] := rfl

theorem applyOp_pending (st : Blockchain) :
    ∀ op : Op, (applyOp st op).current_transactions =
      pendStep st.current_transactions op
  | .enqueue _ _ _ => rfl
  | .commit _ _ _ => rfl

theorem run_preserves (I : Blockchain → Prop)
    (hstep : ∀ st op, I st → I (applyOp st op)) :
    ∀ (ops : List Op) (st : Blockchain), I st → I (run st ops)
  | [], _, h => h
  | op :: ops, st, h =>
      run_preserves I hstep ops (applyOp st op) (hstep st op h)

/-! ## The index invariant -/

theorem indexOk_append (l : List Block) (b : Block) (hl : indexOk l)
    (hb : b.index = l.length + 1) : indexOk (l ++ [b]) := by
  intro i bi hi
  by_cases hlt : i < l.length
  · rw [List.getElem?_append_left hlt] at hi
    exact hl i bi hi
  · have hle : l.length ≤ i := Nat.le_of_not_lt hlt
    rw [List.getElem?_append_right hle] at hi
    rcases Nat.eq_or_lt_of_le hle with heq | hlt2
    · rw [← heq, Nat.sub_self] at hi
      simp only [List.getElem?_cons_zero, Option.some.injEq] at hi
      subst hi
      omega
    · rw [List.getElem?_eq_none (by simp; omega)] at hi
      exact absurd hi (by simp)

theorem chainInv_init (t : Nat) : ChainInv (Blockchain.init t) := by
  refine ⟨by rw [init_chain]; simp, ?_⟩
  intro i b hi
  rw [init_chain] at hi
  cases i with
  | zero =>
      simp only [List.getElem?_cons_zero, Option.some.injEq] at hi
      rw [← hi]
      rfl
  | succ n =>
      rw [List.getElem?_cons_succ] at hi
      exact absurd hi (by simp)

theorem chainInv_step (st : Blockchain) (op : Op) (h : ChainInv st) :
    ChainInv (applyOp st op) := by
  obtain ⟨hne, hidx⟩ := h
  cases op with
  | enqueue s r a => exact ⟨hne, hidx⟩
  | commit t p ph =>
      constructor
      · show st.chain ++ [(st.create_block t p ph).1] ≠ []
        simp
      · show indexOk (st.chain ++ [(st.create_block t p ph).1])
        exact indexOk_append st.chain _ hidx rfl

theorem chainInv_run (t0 : Nat) (ops : List Op) :
    ChainInv (run (Blockchain.init t0) ops) :=
  run_preserves ChainInv chainInv_step ops _ (chainInv_init t0)

theorem lastIndex_of_chainInv (st : Blockchain) (h : ChainInv st) :
    ∃ b, st.chain.getLast? = some b ∧ b.index = st.chain.length := by
  obtain ⟨hne, hidx⟩ := h
  obtain ⟨b, hb⟩ := Option.isSome_iff_exists.mp (List.getLast?_isSome.mpr hne)
  refine ⟨b, hb, ?_⟩
  rw [List.getLast?_eq_getElem?] at hb
  have hlen : 0 < st.chain.length := List.length_pos.mpr hne
  have := hidx _ _ hb
  omega

/-! ## Claim theorems: ledger state -/

/-- Claim C7: a freshly constructed `Blockchain` has exactly the genesis
block (index 1, empty transactions, sentinel previous hash `1`, fixed
proof constant `100`), an empty pending buffer, and `last_block` returns
that block. -/
theorem genesis_spec (t : Nat) :
    (Blockchain.init t).chain = [genesisBlock t] ∧
    (Blockchain.init t).current_transactions = [] ∧
    (Blockchain.init t).last_block = some (genesisBlock t) ∧
    (genesisBlock t).index = 1 ∧
    (genesisBlock t).transactions = [] ∧
    (genesisBlock t).previous_hash = PrevHash.intVal 1 ∧
    (genesisBlock t).proof = 100 :=
  ⟨rfl, rfl, rfl, rfl, rfl, rfl, rfl⟩

/-- Claim C6: in every state reachable from a fresh `Blockchain` by any
sequence of enqueue/commit operations, the block at position `i` of the
chain has `index = i + 1`. -/
theorem chain_index_invariant (t0 : Nat) (ops : List Op) (i : Nat) (b : Block)
    (h : (run (Blockchain.init t0) ops).chain[i]? = some b) :
    b.index = i + 1 :=
  (chainInv_run t0 ops).2 i b h

/-- Witness for C6: the genesis block of a fresh ledger sits at position 0
with index 1. -/
theorem chain_index_invariant_witness :
    (run (Blockchain.init 0) []).chain[0]? = some (genesisBlock 0) ∧
    (genesisBlock 0).index = 0 + 1 :=
  ⟨rfl, chain_index_invariant 0 [] 0 (genesisBlock 0) rfl⟩

theorem run_pending : ∀ (ops : List Op) (st : Blockchain),
    (run st ops).current_transactions = ops.foldl pendStep st.current_transactions
  | [], _ => rfl
  | op :: ops, st => by
      rw [run_cons, run_pending ops, List.foldl_cons, applyOp_pending]

/-- Claim C2: in every reachable state, `create_block` packs exactly the
transactions enqueued since the previous commit (in enqueue order, none
lost or duplicated) into the new block, and clears the pending buffer in
the same operation. -/
theorem create_block_drains_pending (t0 : Nat) (ops : List Op) (t : Nat)
    (p : Int) (ph : PrevHash) :
    ((run (Blockchain.init t0) ops).create_block t p ph).1.transactions =
      pendingOfTrace ops ∧
    ((run (Blockchain.init t0) ops).create_block t p ph).2.current_transactions =
      [] := by
  constructor
  · show (run (Blockchain.init t0) ops).current_transactions = pendingOfTrace ops
    rw [run_pending, init_pending]
    rfl
  · rfl

/-- Claim C5: in every reachable state, `create_transaction` appends
exactly one transaction to the pending buffer, leaves the chain alone,
and returns the current chain length plus one; on a fresh ledger the
first enqueue returns 2. -/
theorem create_transaction_spec (t0 : Nat) (ops : List Op) (s r : String)
    (a : Int) :
    ((run (Blockchain.init t0) ops).create_transaction s r a).1 =
      some ((run (Blockchain.init t0) ops).chain.length + 1) ∧
    ((run (Blockchain.init t0) ops).create_transaction s r a).2.current_transactions =
      (run (Blockchain.init t0) ops).current_transactions ++ [⟨s, r, a⟩] ∧
    ((run (Blockchain.init t0) ops).create_transaction s r a).2.chain =
      (run (Blockchain.init t0) ops).chain ∧
    ((Blockchain.init t0).create_transaction s r a).1 = some 2 := by
  obtain ⟨lb, hlb, hidx⟩ := lastIndex_of_chainInv _ (chainInv_run t0 ops)
  refine ⟨?_, rfl, rfl, rfl⟩
  show ((run (Blockchain.init t0) ops).chain.getLast?).map (fun b => b.index + 1) =
    some ((run (Blockchain.init t0) ops).chain.length + 1)
  rw [hlb]
  simp [hidx]

/-! ## Claim theorems: hash chaining -/

/-- Claim C1 (counterexample): the invariant as stated quantifies over all
enqueue/commit sequences, but `create_block` records whatever
`previous_hash` the caller passes; committing with the string `"x"` yields
a reachable state whose second block is not linked to the canonical hash
of the genesis block. -/
theorem chain_link_counterexample :
    (run (Blockchain.init 0) [Op.commit 0 0 (PrevHash.strVal ("x"))]).chain.length = 2 ∧
    ((run (Blockchain.init 0) [Op.commit 0 0 (PrevHash.strVal ("x"))]).chain[1]?).map
        Block.previous_hash = some (PrevHash.strVal ("x")) ∧
    (run (Blockchain.init 0) [Op.commit 0 0 (PrevHash.strVal ("x"))]).chain[0]? =
      some (genesisBlock 0) ∧
    PrevHash.strVal ("x") ≠ PrevHash.strVal (Blockchain.hash (genesisBlock 0)) :=
  ⟨rfl, rfl, rfl, by decide⟩

/-- Claim C1 (amended): in every state reachable from a fresh `Blockchain`
by enqueues and by commits that pass the canonical hash of the current
last block as `previous_hash` (as the `/mine` endpoint does), every
adjacent pair of committed blocks satisfies
`chain[i+1].previous_hash = hash(chain[i])`. -/
theorem chained_commits_link (st : Blockchain) (h : ChainedReach st) :
    chainLinked st.chain := by
  induction h with
  | init t =>
      intro i b1 b2 h1 h2
      rw [init_chain, List.getElem?_eq_none (by simp)] at h2
      exact absurd h2 (by simp)
  | enqueue s r a hst ih => exact ih
  | commit t p hst hlb ih =>
      rename_i st' lb
      intro i b1 b2 h1 h2
      rw [create_block_chain] at h1 h2
      by_cases hc : i + 1 < st'.chain.length
      · rw [List.getElem?_append_left hc] at h2
        rw [List.getElem?_append_left (by omega)] at h1
        exact ih i b1 b2 h1 h2
      · have hle : st'.chain.length ≤ i + 1 := Nat.le_of_not_lt hc
        rw [List.getElem?_append_right hle] at h2
        rcases Nat.eq_or_lt_of_le hle with heq | hlt
        · rw [← heq, Nat.sub_self] at h2
          simp only [List.getElem?_cons_zero, Option.some.injEq] at h2
          have hi : i < st'.chain.length := by omega
          rw [List.getElem?_append_left hi] at h1
          have hlast : st'.chain.getLast? = some b1 := by
            rw [List.getLast?_eq_getElem?, show st'.chain.length - 1 = i by omega]
            exact h1
          have hlb2 : st'.chain.getLast? = some lb := hlb
          rw [hlast, Option.some.injEq] at hlb2
          rw [← h2, create_block_fst, hlb2]
        · rw [List.getElem?_eq_none (by simp; omega)] at h2
          exact absurd h2 (by simp)

/-- Witness for the amended C1: after one chained commit on a fresh
ledger, the `previous_hash` of the second block is the canonical hash of the
genesis block. -/
theorem chained_commits_link_witness :
    ((Blockchain.init 0).create_block 7 5
        (PrevHash.strVal (Blockchain.hash (genesisBlock 0)))).2.chain[1]? =
      some ((Blockchain.init 0).create_block 7 5
        (PrevHash.strVal (Blockchain.hash (genesisBlock 0)))).1 ∧
    ((Blockchain.init 0).create_block 7 5
        (PrevHash.strVal (Blockchain.hash (genesisBlock 0)))).1.previous_hash =
      PrevHash.strVal (Blockchain.hash (genesisBlock 0)) :=
  ⟨rfl,
   chained_commits_link _
     (ChainedReach.commit 7 5 (ChainedReach.init 0) rfl) 0 (genesisBlock 0) _
     rfl rfl⟩

/-! ## Claim theorems: proof of work -/

theorem powLoop_spec (lp : Int) :
    ∀ (d start fuel : Nat),
      (∀ j : Nat, start ≤ j → j < start + d →
        Blockchain.valid_proof lp (Int.ofNat j) = false) →
      Blockchain.valid_proof lp (Int.ofNat (start + d)) = true →
      d < fuel → powLoop lp fuel start = some (start + d) := by
  intro d
  induction d with
  | zero =>
      intro start fuel hmin hhit hfuel
      match fuel, hfuel with
      | fuel + 1, _ =>
        rw [Nat.add_zero] at hhit ⊢
        show (if Blockchain.valid_proof lp (Int.ofNat start) = true then some start
              else powLoop lp fuel (start + 1)) = some start
        rw [if_pos hhit]
  | succ d ih =>
      intro start fuel hmin hhit hfuel
      match fuel, hfuel with
      | fuel + 1, hfuel =>
        have h0 : Blockchain.valid_proof lp (Int.ofNat start) = false :=
          hmin start (Nat.le_refl _) (by omega)
        show (if Blockchain.valid_proof lp (Int.ofNat start) = true then some start
              else powLoop lp fuel (start + 1)) = some (start + (d + 1))
        rw [if_neg (by rw [h0]; exact Bool.false_ne_true)]
        have h2 := ih (start + 1) fuel
          (fun j hj1 hj2 => hmin j (by omega) (by omega))
          (by rw [show start + 1 + d = start + (d + 1) from by omega]; exact hhit)
          (by omega)
        rw [h2, show start + 1 + d = start + (d + 1) from by omega]

theorem powLoop_finds (lp : Int)
    (h : ∃ c : Nat, Blockchain.valid_proof lp (Int.ofNat c) = true) :
    powLoop lp (Nat.find h + 1) 0 = some (Nat.find h) := by
  have := powLoop_spec lp (Nat.find h) 0 (Nat.find h + 1)
    (fun j hj1 hj2 => by
      have := Nat.find_min h (m := j) (by omega)
      simpa using this)
    (by simpa using Nat.find_spec h)
    (by omega)
  simpa using this

/-- Claim C3: whenever some candidate satisfies the difficulty predicate,
`proof_of_work` is the value the incrementing search loop returns, it
satisfies `valid_proof`, and every smaller non-negative candidate fails
`valid_proof` (minimality). -/
theorem proof_of_work_minimal (last_proof : Int)
    (h : ∃ c : Nat, Blockchain.valid_proof last_proof (Int.ofNat c) = true) :
    powLoop last_proof (Blockchain.proof_of_work last_proof h + 1) 0 =
      some (Blockchain.proof_of_work last_proof h) ∧
    Blockchain.valid_proof last_proof
      (Int.ofNat (Blockchain.proof_of_work last_proof h)) = true ∧
    ∀ c : Nat, c < Blockchain.proof_of_work last_proof h →
      Blockchain.valid_proof last_proof (Int.ofNat c) = false := by
  refine ⟨powLoop_finds last_proof h, Nat.find_spec h, ?_⟩
  intro c hc
  have := Nat.find_min h hc
  simpa using this

/-- Witness for C3: for reference 100 a satisfying candidate exists (226),
and the returned proof satisfies the predicate. -/
theorem proof_of_work_minimal_witness :
    Blockchain.valid_proof 100
      (Int.ofNat (Blockchain.proof_of_work 100 ⟨226, by decide⟩)) = true :=
  (proof_of_work_minimal 100 ⟨226, by decide⟩).2.1

/-- Claim C8: under the precondition that some candidate satisfies the
difficulty predicate, the incrementing search loop of `proof_of_work`
terminates: some finite fuel suffices for it to return a satisfying
candidate. -/
theorem proof_of_work_terminates (last_proof : Int)
    (h : ∃ c : Nat, Blockchain.valid_proof last_proof (Int.ofNat c) = true) :
    ∃ fuel res : Nat, powLoop last_proof fuel 0 = some res ∧
      Blockchain.valid_proof last_proof (Int.ofNat res) = true :=
  ⟨Nat.find h + 1, Nat.find h, powLoop_finds last_proof h, Nat.find_spec h⟩

/-- Witness for C8: the search for reference 100 terminates. -/
theorem proof_of_work_terminates_witness :
    ∃ fuel res : Nat, powLoop 100 fuel 0 = some res ∧
      Blockchain.valid_proof 100 (Int.ofNat res) = true :=
  proof_of_work_terminates 100 ⟨226, by decide⟩

/-! ## Claim theorems: the difficulty predicate -/

theorem take2_iff (l : List Char) :
    l.take 2 = ['0', '0'] ↔ (l.getD 0 'x' = '0' ∧ l.getD 1 'x' = '0') := by
  match l with
  | [] => simp
  | [a] =>
      constructor
      · intro h
        have hlen := congrArg List.length h
        simp at hlen
      · rintro ⟨h1, h2⟩
        have hx : ('x' : Char) = '0' := h2
        exact absurd hx (by decide)
  | a :: b :: rest => simp [List.take, List.getD]

/-- Claim C4: the `valid_proof` of the code agrees, on every pair of integers,
with the spec-side predicate `validProofSpec` (hash the concatenated
decimal strings; valid iff the first two hex characters of the digest are
both `'0'`); both are total Boolean functions. -/
theorem valid_proof_eq_spec (reference candidate : Int) :
    Blockchain.valid_proof reference candidate =
      validProofSpec reference candidate := by
  rw [Bool.eq_iff_iff]
  simp only [Blockchain.valid_proof, validProofSpec, Bool.and_eq_true,
    beq_iff_eq, take2_iff]

/-- Claim C10: `valid_proof` depends only on the concatenation of the
decimal strings of its arguments: equal concatenations give equal
verdicts. -/
theorem valid_proof_concat (a b c d : Int)
    (h : toString a ++ toString b = toString c ++ toString d) :
    Blockchain.valid_proof a b = Blockchain.valid_proof c d :=
  congrArg (fun s => (hexChars (sha256 (strBytes s))).take 2 == ['0', '0']) h

/-- Witness for C10: `"1" ++ "23"` and `"12" ++ "3"` concatenate to the
same string, so validation cannot tell `(1, 23)` from `(12, 3)`. -/
theorem valid_proof_concat_witness :
    Blockchain.valid_proof 1 23 = Blockchain.valid_proof 12 3 :=
  valid_proof_concat 1 23 12 3 (by decide)

/-! ## Claim theorems: the endpoint -/

/-- Claim C9: a submit-transfer request missing any of the required fields
is rejected with the client error (message Missing values, status 400) and the
ledger state (chain and pending buffer alike) is returned unchanged. -/
theorem endpoint_rejects_missing (st : Blockchain) (req : TransferRequest)
    (h : req.sender = none ∨ req.recipient = none ∨ req.amount = none) :
    create_transaction_endpoint st req = (some ("Missing values", 400), st) := by
  obtain ⟨s0, r0, a0⟩ := req
  cases s0 <;> cases r0 <;> cases a0 <;>
    first
      | rfl
      | (exfalso; simp at h)

/-- Witness for C9 (Scenario D): a request missing `amount` is rejected
and the fresh ledger is unchanged. -/
theorem endpoint_rejects_missing_witness :
    create_transaction_endpoint (Blockchain.init 0)
        ⟨some ("a"), some ("b"), none⟩ =
      (some ("Missing values", 400), Blockchain.init 0) :=
  endpoint_rejects_missing (Blockchain.init 0) ⟨some ("a"), some ("b"), none⟩
    (Or.inr (Or.inr rfl))

end Bevochain
